import Mathlib

/-!
Shallow embedding of the `arodland/loadbalance` discrete-time load-balancer
simulation (`src/main.go`).

Modelling conventions:
* Go `int64` timestamps (`tm`, `Sent`, `Accepted`, `Completed`) become `Int`.
* Item keys are produced by `int64(rand.ExpFloat64() * itemParameter)` and are
  therefore always nonnegative; they are modelled as `Nat`, so Go's `%` on
  them coincides with `Nat.mod`.
* The per-server cache is `github.com/golang/groupcache/lru`.  Only key
  presence matters to this program (values are always `true`), so the cache
  is modelled as its recency list of keys, most recently used first.
  `Get` moves a present key to the front and reports presence; `Add` moves a
  present key to the front, or pushes a new key at the front and evicts the
  back element when the capacity is exceeded.
* `float64` statistics counters (`totalRequests`, `acceptedRequests`,
  `totalCached`, `totalQueued`, `totalTime`, `tmx`) only ever accumulate
  integer increments that stay far below 2^53 at this program's scale, so
  they are modelled exactly as `Nat` / `Int`.
* Go panics (`FindSlot` finding no free slot) become `Option.none`.
* Randomness (`GenerateRequests`, policy choice) is modelled by quantifying
  over the per-tick list of generated requests together with the server index
  chosen for each; `Sent` is stamped with the current tick by the generator,
  which becomes a hypothesis on those lists.
* `dropped` is a ghost counter: the spec states that the dropped count is
  "inferred from queue-full rejections", so the dispatch step counts exactly
  the arrivals rejected because the chosen server's queue was full.
* `resetCount` on the main-loop state is a ghost counter of mid-run stat
  resets, used to state that the reset happens exactly once.
-/

/-- `const numServers = 100` -/
def numServers : Nat := 100

/-- `const numSlots = 8` -/
def numSlots : Nat := 8

/-- `const itemParameter = 10000` -/
def itemParameter : Nat := 10000

/-- `const cachedHandleTime = 10` -/
def cachedHandleTime : Int := 10

/-- `const uncachedHandleTime = 100` -/
def uncachedHandleTime : Int := 100

/-- `const requestLimit = 4000000` -/
def requestLimit : Int := 4000000

/-- `const cacheSize = 1.8 * itemParameter / numServers` (exactly 180). -/
def cacheSize : Nat := 180

/-- `const maxQueue = 50` -/
def maxQueue : Nat := 50

/-- Go `Request` struct. -/
structure Request where
  Item : Nat
  Sent : Int
  Accepted : Int
  Completed : Int
  Cached : Bool
deriving Repr, DecidableEq, Inhabited

/-- Go `Slot` struct: a `Full` flag plus an embedded `Request`. -/
structure Slot where
  Full : Bool
  req : Request
deriving Repr, DecidableEq, Inhabited

/-- The `github.com/golang/groupcache/lru` cache, reduced to what this
program uses: a capacity and the recency-ordered list of present keys
(most recently used first). -/
structure LruCache where
  maxEntries : Nat
  keys : List Nat
deriving Repr, DecidableEq, Inhabited

/-- `lru.Cache.Get`: reports presence and, on a hit, moves the entry to the
front of the recency list. -/
def LruCache.get (c : LruCache) (k : Nat) : Bool × LruCache :=
  if k ∈ c.keys then (true, { c with keys := k :: c.keys.erase k })
  else (false, c)

/-- `lru.Cache.Add`: a present key is moved to the front; a new key is pushed
at the front, evicting the oldest (back) entry when the capacity is
exceeded. -/
def LruCache.add (c : LruCache) (k : Nat) : LruCache :=
  if k ∈ c.keys then { c with keys := k :: c.keys.erase k }
  else
    if c.maxEntries ≠ 0 ∧ c.keys.length + 1 > c.maxEntries
    then { c with keys := (k :: c.keys).dropLast }
    else { c with keys := k :: c.keys }

/-- Go `Server` struct. -/
structure Server where
  Queue : List Request
  Slots : List Slot
  SlotsUsed : Int
  Cache : LruCache
deriving Repr, DecidableEq, Inhabited

/-- `func (s *Server) AddRequest(r Request)` -/
def Server.AddRequest (s : Server) (r : Request) : Server :=
  if s.Queue.length < maxQueue then { s with Queue := s.Queue ++ [r] } else s

/-- The scan of `func (s *Server) FindSlot() int`, carrying the index of the
head of the remaining slot list. -/
def findSlotGo : List Slot → Nat → Option Nat
  | [], _ => none
  | sl :: rest, i => if sl.Full then findSlotGo rest (i + 1) else some i

/-- `func (s *Server) FindSlot() int`: first index whose slot is not `Full`;
`none` models the `panic("All slots used")`. -/
def Server.FindSlot (s : Server) : Option Nat :=
  findSlotGo s.Slots 0

/-- The handle time computed by `HandleRequest`: the base time for the given
hit/miss outcome, plus the load surcharge when `s.SlotsUsed > numSlots/2`
(read before `SlotsUsed` is incremented). -/
def Server.handleTimeFor (s : Server) (cached : Bool) : Int :=
  let ht : Int := if cached then cachedHandleTime else uncachedHandleTime
  if s.SlotsUsed > (numSlots : Int) / 2
  then ht + ht / (numSlots : Int) * (s.SlotsUsed - (numSlots : Int) / 2)
  else ht

/-- The request as stamped by `HandleRequest` at tick `tm`: `Accepted := tm`,
`Cached` set on a cache hit, `Completed := Accepted + handleTime`. -/
def Server.stamped (s : Server) (tm : Int) (r : Request) : Request :=
  let cached := (s.Cache.get r.Item).1
  { r with
    Accepted := tm
    Cached := if cached then true else r.Cached
    Completed := tm + s.handleTimeFor cached }

/-- `func (s *Server) HandleRequest(r Request)`: find a free slot (panic →
`none`), mark it full, look the key up in the cache (which refreshes its
recency on a hit), stamp the request and store it, and increment
`SlotsUsed`. -/
def Server.HandleRequest (s : Server) (tm : Int) (r : Request) : Option Server :=
  match s.FindSlot with
  | none => none
  | some i =>
    some { s with
      Slots := s.Slots.set i ⟨true, s.stamped tm r⟩
      SlotsUsed := s.SlotsUsed + 1
      Cache := (s.Cache.get r.Item).2 }

/-- `func (s *Server) CompleteRequest(i int) Request`: free slot `i`,
decrement `SlotsUsed`, insert the item into the cache, return the request. -/
def Server.CompleteRequest (s : Server) (i : Nat) : Request × Server :=
  let r := (s.Slots.getD i default).req
  (r, { s with
    Slots := s.Slots.set i ⟨false, (s.Slots.getD i default).req⟩
    SlotsUsed := s.SlotsUsed - 1
    Cache := s.Cache.add r.Item })

/-- `func (s *Server) Outstanding() int` -/
def Server.Outstanding (s : Server) : Int :=
  (s.Queue.length : Int) + s.SlotsUsed

/-- The admission loop of `Server.Tick`: while `SlotsUsed < numSlots` and the
queue is nonempty, `HandleRequest` the head and drop it from the queue.  The
first argument is the remaining queue; the `Queue` field of the result is the
leftover queue. -/
def drainLoop (tm : Int) : List Request → Server → Option Server
  | [], s => some { s with Queue := [] }
  | r :: rest, s =>
    if s.SlotsUsed < (numSlots : Int) then
      match s.HandleRequest tm r with
      | none => none
      | some s1 => drainLoop tm rest s1
    else some { s with Queue := r :: rest }

/-- The release scan of `Server.Tick`: for each slot index, if the slot is
full and its request's completion tick has passed, `CompleteRequest` it and
collect the released request. -/
def releaseLoop (tm : Int) : List Nat → Server → List Request → List Request × Server
  | [], s, acc => (acc, s)
  | i :: rest, s, acc =>
    if (s.Slots.getD i default).Full = true ∧ (s.Slots.getD i default).req.Completed ≤ tm then
      let p := s.CompleteRequest i
      releaseLoop tm rest p.2 (acc ++ [p.1])
    else releaseLoop tm rest s acc

/-- `func (s *Server) Tick() (ret []Request)`: admit from the queue into free
slots, then release every completed slot. -/
def Server.Tick (s : Server) (tm : Int) : Option (List Request × Server) :=
  match drainLoop tm s.Queue s with
  | none => none
  | some s1 => some (releaseLoop tm (List.range s1.Slots.length) s1 [])

/-- The `"modchoose2"` dispatch policy: first candidate `Item % numServers`,
second candidate `(first*Item + 1) % numServers`; the second is taken only
when its outstanding count beats the first's by more than 16.  The global
`servers` array is passed explicitly. -/
def modchoose2 (servers : List Server) (r : Request) : Nat :=
  let first := r.Item % numServers
  let second := (first * r.Item + 1) % numServers
  if (servers.getD second default).Outstanding + 16 < (servers.getD first default).Outstanding
  then second
  else first

/-- The global mutable state of the simulation: the clock `tm`, the servers,
and the aggregate statistics counters.  `dropped` is a ghost counter of
queue-full rejections (the spec infers the dropped count from those). -/
structure SimState where
  tm : Int
  servers : List Server
  totalRequests : Nat
  acceptedRequests : Nat
  totalCached : Nat
  totalQueued : Int
  totalTime : Int
  dropped : Nat
deriving Repr, DecidableEq

/-- `func RecordStats(r Request)` -/
def RecordStats (st : SimState) (r : Request) : SimState :=
  { st with
    acceptedRequests := st.acceptedRequests + 1
    totalQueued := st.totalQueued + (r.Accepted - r.Sent)
    totalTime := st.totalTime + (r.Completed - r.Sent)
    totalCached := if r.Cached then st.totalCached + 1 else st.totalCached }

/-- One iteration of the dispatch loop in the global `Tick`: count the
generated request, route it to server `i`, and enqueue it there (counting a
ghost drop when the queue is full).  An out-of-range index would be a Go
panic and is modelled as `none`; the program only ever produces indices below
`numServers`. -/
def dispatchOne (st : SimState) (r : Request) (i : Nat) : Option SimState :=
  if i < st.servers.length then
    some { st with
      totalRequests := st.totalRequests + 1
      servers := st.servers.set i ((st.servers.getD i default).AddRequest r)
      dropped :=
        if (st.servers.getD i default).Queue.length < maxQueue
        then st.dropped else st.dropped + 1 }
  else none

/-- The dispatch loop of the global `Tick` over the generated requests paired
with the server index chosen for each by the active policy. -/
def dispatchAll : List (Request × Nat) → SimState → Option SimState
  | [], st => some st
  | (r, i) :: rest, st =>
    match dispatchOne st r i with
    | none => none
    | some st1 => dispatchAll rest st1

/-- The per-server loop of the global `Tick`: tick every server in order,
collecting the released requests. -/
def tickServers (tm : Int) : List Server → Option (List Server × List Request)
  | [] => some ([], [])
  | s :: rest =>
    match s.Tick tm with
    | none => none
    | some (done, s1) =>
      match tickServers tm rest with
      | none => none
      | some (rest1, doneRest) => some (s1 :: rest1, done ++ doneRest)

/-- `func Tick()`: advance the clock, generate and dispatch arrivals while
within the generation horizon, tick every server, and record statistics for
every released request.  `arrivals` is the list produced by
`GenerateRequests` (whose requests carry `Sent = tm`), paired with the server
index chosen by `ChooseServer` for each. -/
def Tick (arrivals : List (Request × Nat)) (st : SimState) : Option SimState :=
  let st0 : SimState := { st with tm := st.tm + 1 }
  match (if st0.tm ≤ requestLimit then dispatchAll arrivals st0 else some st0) with
  | none => none
  | some st1 =>
    match tickServers st1.tm st1.servers with
    | none => none
    | some (servers1, done) => some (List.foldl RecordStats { st1 with servers := servers1 } done)

/-- State of the `main` loop: the simulation state plus the elapsed-tick base
`tmx` and the last printed progress decile.  `resetCount` is a ghost counter
of executions of the mid-run statistics reset. -/
structure MainState where
  sim : SimState
  tmx : Nat
  prevCompletion : Int
  resetCount : Nat
deriving Repr, DecidableEq

/-- Sum of `Outstanding()` over all servers, as computed in `main`. -/
def totalOutstanding : List Server → Int
  | [] => 0
  | s :: rest => s.Outstanding + totalOutstanding rest

/-- `finish := total == 0 && tm >= requestLimit` in `main`. -/
def mainFinished (st : MainState) : Bool :=
  decide (totalOutstanding st.sim.servers = 0 ∧ requestLimit ≤ st.sim.tm)

/-- One iteration of the `main` loop: `Tick()`, `tmx += 1`, the mid-run
statistics reset when `tm == requestLimit/2`, and the progress-line state
update (the printing itself has no effect on the state beyond
`prevCompletion`). -/
def mainIteration (arrivals : List (Request × Nat)) (st : MainState) : Option MainState :=
  match Tick arrivals st.sim with
  | none => none
  | some sim1 =>
    let st1 : MainState := { st with sim := sim1, tmx := st.tmx + 1 }
    let st2 : MainState :=
      if st1.sim.tm = requestLimit / 2 then
        { st1 with
          sim := { st1.sim with
            totalRequests := 0
            acceptedRequests := 0
            totalQueued := 0
            totalTime := 0
            totalCached := 0 }
          tmx := 0
          resetCount := st1.resetCount + 1 }
      else st1
    let finish := mainFinished st2
    let completion : Int := 10 * st2.sim.tm / requestLimit
    some (if (1000 ≤ st2.sim.acceptedRequests ∧ completion ≠ st2.prevCompletion) ∨ finish = true
      then { st2 with prevCompletion := completion }
      else st2)

/-- The `main` loop, run for one iteration per entry of `plan` (each entry
being that tick's generated requests with their chosen servers). -/
def runMain : List (List (Request × Nat)) → MainState → Option MainState
  | [], st => some st
  | a :: rest, st =>
    match mainIteration a st with
    | none => none
    | some st1 => runMain rest st1

/-- A server as built by `init()`: empty queue, `numSlots` empty slots,
`SlotsUsed = 0`, an empty cache of capacity `cacheSize`. -/
def emptyServer : Server :=
  { Queue := []
    Slots := List.replicate numSlots ⟨false, default⟩
    SlotsUsed := 0
    Cache := { maxEntries := cacheSize, keys := [] } }

/-- The initial global state: `tm = 0`, `numServers` fresh servers, all
counters zero. -/
def simInit : SimState :=
  { tm := 0
    servers := List.replicate numServers emptyServer
    totalRequests := 0
    acceptedRequests := 0
    totalCached := 0
    totalQueued := 0
    totalTime := 0
    dropped := 0 }

/-- The initial `main`-loop state (`prevCompletion = -1`). -/
def mainInit : MainState :=
  { sim := simInit, tmx := 0, prevCompletion := -1, resetCount := 0 }

/-- Number of slots whose `Full` flag is set. -/
def countFull : List Slot → Nat
  | [] => 0
  | sl :: rest => (if sl.Full then 1 else 0) + countFull rest

/-- The per-server slot-accounting invariant: `SlotsUsed` equals the number
of full slots and the slot array has its construction length `numSlots`. -/
def Server.slotsInv (s : Server) : Prop :=
  s.SlotsUsed = (countFull s.Slots : Int) ∧ s.Slots.length = numSlots

/-- Timestamp sanity for a single slot: if it is occupied, its request was
admitted no earlier than it was sent and completes strictly after it was
admitted. -/
def slotTimeOK (sl : Slot) : Prop :=
  sl.Full = true → sl.req.Sent ≤ sl.req.Accepted ∧ sl.req.Accepted < sl.req.Completed

/-- The per-server timestamp invariant at clock value `tm`. -/
def Server.timeInv (s : Server) (tm : Int) : Prop :=
  (∀ r ∈ s.Queue, r.Sent ≤ tm) ∧ (∀ sl ∈ s.Slots, slotTimeOK sl)

/-- Number of requests held by a server (queued or slotted). -/
def Server.load (s : Server) : Nat :=
  s.Queue.length + countFull s.Slots

/-- Total number of in-flight requests across all servers. -/
def totalLoad : List Server → Nat
  | [] => 0
  | s :: rest => s.load + totalLoad rest

/-- The conservation invariant: every generated request is recorded, was
dropped at a full queue, or is still in flight. -/
def conservation (st : SimState) : Prop :=
  st.totalRequests = st.acceptedRequests + st.dropped + totalLoad st.servers

/-- The state after the first engine tick of a run with no arrivals. -/
def simInit1 : SimState := { simInit with tm := 1 }

/-- A server with four of its eight slots in use and an empty cache
(a state reached after admitting four requests with no completions). -/
def s4 : Server :=
  { Queue := []
    Slots := List.replicate 4 ⟨true, default⟩ ++ List.replicate 4 ⟨false, default⟩
    SlotsUsed := 4
    Cache := { maxEntries := cacheSize, keys := [] } }

/-- A cache holding keys 1 and 2, key 2 most recent (reached from the empty
cache by inserting 1 then 2). -/
def cacheCex : LruCache := ((⟨cacheSize, []⟩ : LruCache).add 1).add 2

/-- A fresh server whose cache is `cacheCex`. -/
def serverCex : Server := { emptyServer with Cache := cacheCex }

/-- A request for item key 1. -/
def reqK1 : Request := { Item := 1, Sent := 0, Accepted := 0, Completed := 0, Cached := false }

/-- A server whose outstanding count is 16 (sixteen queued requests). -/
def serverOut16 : Server := { emptyServer with Queue := List.replicate 16 default }

/-- A three-server farm where server 1 has outstanding 16 and server 2 has
outstanding 0: the power-of-two-choices margin is exactly met. -/
def srvW : List Server := [emptyServer, serverOut16, emptyServer]

/-- A request with item key 1 (so the mod-derived candidates are servers
1 and 2). -/
def reqW : Request := { Item := 1, Sent := 0, Accepted := 0, Completed := 0, Cached := false }

/-- A server whose queue is at the `maxQueue` capacity. -/
def fullServer : Server := { emptyServer with Queue := List.replicate maxQueue default }

/-- A request admitted at tick 0 and due to complete at tick 5. -/
def reqDone : Request := { Item := 0, Sent := 0, Accepted := 0, Completed := 5, Cached := false }

/-- A server with one in-flight request due at tick 5. -/
def sDone : Server :=
  { Queue := []
    Slots := ⟨true, reqDone⟩ :: List.replicate 7 ⟨false, default⟩
    SlotsUsed := 1
    Cache := { maxEntries := cacheSize, keys := [] } }

/-- The generated request used for the conservation counterexample: key 0,
sent at tick 1. -/
def reqC3 : Request := { Item := 0, Sent := 1, Accepted := 0, Completed := 0, Cached := false }

/-- The server produced by admitting one fresh request into `s4` at tick 0:
the request misses the empty cache and completes at tick 100 (no surcharge,
since the pre-admission count 4 does not exceed `numSlots/2`). -/
def s4' : Server :=
  { Queue := []
    Slots := List.replicate 4 ⟨true, default⟩ ++
      (⟨true, { Item := 0, Sent := 0, Accepted := 0, Completed := 100, Cached := false }⟩ ::
        List.replicate 3 ⟨false, default⟩)
    SlotsUsed := 5
    Cache := { maxEntries := cacheSize, keys := [] } }

/-- The server produced by ticking `sDone` at tick 5: the due request has
been released and its key inserted into the cache. -/
def sDone' : Server :=
  { Queue := []
    Slots := ⟨false, reqDone⟩ :: List.replicate 7 ⟨false, default⟩
    SlotsUsed := 0
    Cache := { maxEntries := cacheSize, keys := [0] } }

/-! ## Basic list and slot-counting lemmas -/

theorem getD_mem_of_lt {α : Type} [Inhabited α] (l : List α) (i : Nat) (h : i < l.length) :
    l.getD i default ∈ l := by
  rw [List.getD_eq_getElem l default h]
  exact List.getElem_mem h

theorem getD_set_self {α : Type} [Inhabited α] (l : List α) (i : Nat) (v : α)
    (h : i < l.length) : (l.set i v).getD i default = v := by
  rw [List.getD_eq_getElem _ _ (by simpa using h)]
  simp

theorem countFull_le_length : ∀ l : List Slot, countFull l ≤ l.length
  | [] => le_refl 0
  | sl :: rest => by
    have := countFull_le_length rest
    simp only [countFull, List.length_cons]
    split <;> omega

theorem countFull_eq_length_of_all_full :
    ∀ l : List Slot, (∀ sl ∈ l, sl.Full = true) → countFull l = l.length
  | [], _ => rfl
  | sl :: rest, h => by
    have h1 := h sl (by simp)
    have h2 := countFull_eq_length_of_all_full rest (fun x hx => h x (by simp [hx]))
    simp only [countFull, h1, if_true, h2, List.length_cons]
    omega

theorem countFull_set_true :
    ∀ (l : List Slot) (i : Nat) (r : Request), i < l.length →
      (l.getD i default).Full = false →
      countFull (l.set i ⟨true, r⟩) = countFull l + 1
  | [], i, r, h, _ => absurd h (by simp)
  | sl :: rest, 0, r, _, hf => by
    rw [List.getD_cons_zero] at hf
    simp [List.set, countFull, hf]
    omega
  | sl :: rest, i + 1, r, h, hf => by
    have h1 : i < rest.length := by simpa using h
    have h2 : (rest.getD i default).Full = false := by
      rwa [List.getD_cons_succ] at hf
    have := countFull_set_true rest i r h1 h2
    simp only [List.set, countFull, this]
    omega

theorem countFull_set_notFull :
    ∀ (l : List Slot) (i : Nat) (v : Slot), v.Full = false → i < l.length →
      (l.getD i default).Full = true →
      countFull (l.set i v) + 1 = countFull l
  | [], i, v, _, h, _ => absurd h (by simp)
  | sl :: rest, 0, v, hv, _, hf => by
    rw [List.getD_cons_zero] at hf
    simp [List.set, countFull, hf, hv]
    omega
  | sl :: rest, i + 1, v, hv, h, hf => by
    have h1 : i < rest.length := by simpa using h
    have h2 : (rest.getD i default).Full = true := by
      rwa [List.getD_cons_succ] at hf
    have := countFull_set_notFull rest i v hv h1 h2
    simp only [List.set, countFull]
    omega

theorem lt_length_of_getD_full {l : List Slot} {i : Nat}
    (h : (l.getD i default).Full = true) : i < l.length := by
  by_contra hle
  push_neg at hle
  rw [List.getD_eq_default _ _ hle] at h
  simp [default] at h

/-! ## FindSlot lemmas -/

theorem findSlotGo_none :
    ∀ (l : List Slot) (i : Nat), findSlotGo l i = none → ∀ sl ∈ l, sl.Full = true
  | [], _, _, sl, hm => absurd hm (by simp)
  | sl0 :: rest, i, h, sl, hm => by
    by_cases hF : sl0.Full
    · rcases List.mem_cons.mp hm with rfl | hm'
      · exact hF
      · exact findSlotGo_none rest (i + 1) (by simpa [findSlotGo, hF] using h) sl hm'
    · simp [findSlotGo, hF] at h

theorem findSlotGo_some :
    ∀ (l : List Slot) (i j : Nat), findSlotGo l i = some j →
      ∃ k, j = i + k ∧ k < l.length ∧ (l.getD k default).Full = false
  | [], _, _, h => by simp [findSlotGo] at h
  | sl0 :: rest, i, j, h => by
    by_cases hF : sl0.Full
    · obtain ⟨k, hk, hlt, hful⟩ := findSlotGo_some rest (i + 1) j (by simpa [findSlotGo, hF] using h)
      exact ⟨k + 1, by omega, by simpa using Nat.succ_lt_succ hlt, by simpa [List.getD_cons_succ] using hful⟩
    · refine ⟨0, ?_, by simp, ?_⟩
      · simp only [findSlotGo, hF, if_false] at h
        simp at h
        omega
      · simpa [List.getD_cons_zero] using (Bool.not_eq_true sl0.Full).mp hF

theorem FindSlot_spec {s : Server} {i : Nat} (h : s.FindSlot = some i) :
    i < s.Slots.length ∧ (s.Slots.getD i default).Full = false := by
  obtain ⟨k, hk, hlt, hful⟩ := findSlotGo_some s.Slots 0 i h
  exact ⟨by omega, by rwa [show i = k by omega]⟩

theorem FindSlot_isSome {s : Server} (h : countFull s.Slots < s.Slots.length) :
    s.FindSlot.isSome = true := by
  cases hf : s.FindSlot with
  | some i => rfl
  | none =>
    have hall := findSlotGo_none s.Slots 0 hf
    have := countFull_eq_length_of_all_full s.Slots hall
    omega

/-! ## Handle-time and stamping lemmas -/

theorem handleTimeFor_eq (s : Server) (c : Bool) :
    s.handleTimeFor c =
      (if c then cachedHandleTime else uncachedHandleTime) +
        (if s.SlotsUsed > (numSlots : Int) / 2
         then (if c then cachedHandleTime else uncachedHandleTime) / (numSlots : Int) *
                (s.SlotsUsed - (numSlots : Int) / 2)
         else 0) := by
  simp only [Server.handleTimeFor]
  split <;> simp

theorem handleTimeFor_base (s : Server) (c : Bool) :
    (if c then cachedHandleTime else uncachedHandleTime) ≤ s.handleTimeFor c := by
  rw [handleTimeFor_eq]
  by_cases hcond : s.SlotsUsed > (numSlots : Int) / 2
  · rw [if_pos hcond]
    have hq : (0 : Int) ≤ (if c then cachedHandleTime else uncachedHandleTime) / (numSlots : Int) :=
      Int.ediv_nonneg (by cases c <;> norm_num [cachedHandleTime, uncachedHandleTime])
        (by norm_num [numSlots])
    have hpos : (0 : Int) ≤ s.SlotsUsed - (numSlots : Int) / 2 := by omega
    have hmul := mul_nonneg hq hpos
    omega
  · rw [if_neg hcond]
    omega

theorem handleTimeFor_ge_cached (s : Server) (c : Bool) :
    cachedHandleTime ≤ s.handleTimeFor c := by
  have h := handleTimeFor_base s c
  have hb : cachedHandleTime ≤ (if c then cachedHandleTime else uncachedHandleTime) := by
    cases c <;> norm_num [cachedHandleTime, uncachedHandleTime]
  exact le_trans hb h

theorem handleTimeFor_pos (s : Server) (c : Bool) : 0 < s.handleTimeFor c :=
  lt_of_lt_of_le (by norm_num [cachedHandleTime]) (handleTimeFor_ge_cached s c)

theorem stamped_Sent (s : Server) (tm : Int) (r : Request) :
    (s.stamped tm r).Sent = r.Sent := rfl

theorem stamped_Accepted (s : Server) (tm : Int) (r : Request) :
    (s.stamped tm r).Accepted = tm := rfl

theorem stamped_Completed (s : Server) (tm : Int) (r : Request) :
    (s.stamped tm r).Completed = tm + s.handleTimeFor (s.Cache.get r.Item).1 := rfl

theorem stamped_Accepted_lt_Completed (s : Server) (tm : Int) (r : Request) :
    (s.stamped tm r).Accepted < (s.stamped tm r).Completed := by
  rw [stamped_Accepted, stamped_Completed]
  have := handleTimeFor_pos s (s.Cache.get r.Item).1
  omega

/-! ## HandleRequest lemmas -/

theorem HandleRequest_eq_some {s : Server} {tm : Int} {r : Request} {s' : Server}
    (h : s.HandleRequest tm r = some s') :
    ∃ i, s.FindSlot = some i ∧
      s' = { s with
        Slots := s.Slots.set i ⟨true, s.stamped tm r⟩
        SlotsUsed := s.SlotsUsed + 1
        Cache := (s.Cache.get r.Item).2 } := by
  unfold Server.HandleRequest at h
  cases hf : s.FindSlot with
  | none => rw [hf] at h; cases h
  | some i =>
    rw [hf] at h
    exact ⟨i, rfl, by injection h with h'; exact h'.symm⟩

theorem HandleRequest_isSome {s : Server} (tm : Int) (r : Request)
    (hinv : s.slotsInv) (hlt : s.SlotsUsed < (numSlots : Int)) :
    (s.HandleRequest tm r).isSome = true := by
  obtain ⟨hcnt, hlen⟩ := hinv
  have hfs : s.FindSlot.isSome = true := FindSlot_isSome (by omega)
  unfold Server.HandleRequest
  cases hf : s.FindSlot with
  | none => rw [hf] at hfs; cases hfs
  | some i => rfl

theorem HandleRequest_slotsInv {s : Server} {tm : Int} {r : Request} {s' : Server}
    (hinv : s.slotsInv) (h : s.HandleRequest tm r = some s') : s'.slotsInv := by
  obtain ⟨i, hf, rfl⟩ := HandleRequest_eq_some h
  obtain ⟨hlt, hful⟩ := FindSlot_spec hf
  obtain ⟨hcnt, hlen⟩ := hinv
  constructor
  · simp only [countFull_set_true s.Slots i (s.stamped tm r) hlt hful]
    push_cast
    omega
  · simpa using hlen

theorem HandleRequest_countFull {s : Server} {tm : Int} {r : Request} {s' : Server}
    (h : s.HandleRequest tm r = some s') :
    countFull s'.Slots = countFull s.Slots + 1 ∧ s'.Queue = s.Queue ∧
      s'.Slots.length = s.Slots.length ∧ s'.SlotsUsed = s.SlotsUsed + 1 := by
  obtain ⟨i, hf, rfl⟩ := HandleRequest_eq_some h
  obtain ⟨hlt, hful⟩ := FindSlot_spec hf
  exact ⟨countFull_set_true s.Slots i (s.stamped tm r) hlt hful, rfl, by simp, rfl⟩

/-! ## Per-operation slot-accounting lemmas -/

theorem AddRequest_slotsInv (s : Server) (r : Request) (h : s.slotsInv) :
    (s.AddRequest r).slotsInv := by
  unfold Server.AddRequest
  split <;> exact h

theorem CompleteRequest_slotsInv {s : Server} {i : Nat} (hinv : s.slotsInv)
    (hful : (s.Slots.getD i default).Full = true) :
    (s.CompleteRequest i).2.slotsInv := by
  have hi : i < s.Slots.length := lt_length_of_getD_full hful
  obtain ⟨hcnt, hlen⟩ := hinv
  have hdec := countFull_set_notFull s.Slots i
    ⟨false, (s.Slots.getD i default).req⟩ rfl hi hful
  constructor
  · simp only [Server.CompleteRequest]
    omega
  · simpa [Server.CompleteRequest] using hlen

theorem CompleteRequest_effects {s : Server} {i : Nat}
    (hful : (s.Slots.getD i default).Full = true) :
    countFull (s.CompleteRequest i).2.Slots + 1 = countFull s.Slots ∧
      (s.CompleteRequest i).2.Queue = s.Queue ∧
      (s.CompleteRequest i).2.Slots.length = s.Slots.length ∧
      (s.CompleteRequest i).1 = (s.Slots.getD i default).req := by
  have hi : i < s.Slots.length := lt_length_of_getD_full hful
  have hdec := countFull_set_notFull s.Slots i
    ⟨false, (s.Slots.getD i default).req⟩ rfl hi hful
  exact ⟨hdec, rfl, by simp [Server.CompleteRequest], rfl⟩

/-! ## drainLoop lemmas -/

theorem drainLoop_isSome (tm : Int) :
    ∀ (q : List Request) (s : Server), s.slotsInv → (drainLoop tm q s).isSome = true
  | [], s, _ => rfl
  | r :: rest, s, hinv => by
    unfold drainLoop
    by_cases hlt : s.SlotsUsed < (numSlots : Int)
    · rw [if_pos hlt]
      have hsome := HandleRequest_isSome tm r hinv hlt
      cases hh : s.HandleRequest tm r with
      | none => rw [hh] at hsome; cases hsome
      | some s1 => exact drainLoop_isSome tm rest s1 (HandleRequest_slotsInv hinv hh)
    · rw [if_neg hlt]
      rfl

theorem drainLoop_slotsInv (tm : Int) :
    ∀ (q : List Request) (s s' : Server), s.slotsInv → drainLoop tm q s = some s' → s'.slotsInv
  | [], s, s', hinv, h => by
    obtain rfl : ({ s with Queue := [] } : Server) = s' := by simpa [drainLoop] using h
    exact hinv
  | r :: rest, s, s', hinv, h => by
    unfold drainLoop at h
    by_cases hlt : s.SlotsUsed < (numSlots : Int)
    · rw [if_pos hlt] at h
      cases hh : s.HandleRequest tm r with
      | none => rw [hh] at h; cases h
      | some s1 =>
        rw [hh] at h
        exact drainLoop_slotsInv tm rest s1 s' (HandleRequest_slotsInv hinv hh) h
    · rw [if_neg hlt] at h
      obtain rfl : ({ s with Queue := r :: rest } : Server) = s' := by simpa using h
      exact hinv

theorem drainLoop_load (tm : Int) :
    ∀ (q : List Request) (s s' : Server), drainLoop tm q s = some s' →
      s'.Queue.length + countFull s'.Slots = q.length + countFull s.Slots ∧
        s'.Slots.length = s.Slots.length
  | [], s, s', h => by
    obtain rfl : ({ s with Queue := [] } : Server) = s' := by simpa [drainLoop] using h
    simp
  | r :: rest, s, s', h => by
    unfold drainLoop at h
    by_cases hlt : s.SlotsUsed < (numSlots : Int)
    · rw [if_pos hlt] at h
      cases hh : s.HandleRequest tm r with
      | none => rw [hh] at h; cases h
      | some s1 =>
        rw [hh] at h
        obtain ⟨hcnt, hq, hlenS, hused⟩ := HandleRequest_countFull hh
        obtain ⟨ih1, ih2⟩ := drainLoop_load tm rest s1 s' h
        constructor
        · rw [ih1, hcnt]
          simp only [List.length_cons]
          omega
        · rw [ih2, hlenS]
    · rw [if_neg hlt] at h
      obtain rfl : ({ s with Queue := r :: rest } : Server) = s' := by simpa using h
      simp

theorem drainLoop_pred (tm : Int) (Q : Slot → Prop) (R : Request → Prop)
    (hnew : ∀ (s : Server) (r : Request), R r → Q ⟨true, s.stamped tm r⟩) :
    ∀ (q : List Request) (s s' : Server), (∀ r ∈ q, R r) → (∀ sl ∈ s.Slots, Q sl) →
      drainLoop tm q s = some s' →
      (∀ sl ∈ s'.Slots, Q sl) ∧ (∀ r ∈ s'.Queue, R r)
  | [], s, s', _, hs, h => by
    obtain rfl : ({ s with Queue := [] } : Server) = s' := by simpa [drainLoop] using h
    exact ⟨hs, by simp⟩
  | r :: rest, s, s', hq, hs, h => by
    unfold drainLoop at h
    by_cases hlt : s.SlotsUsed < (numSlots : Int)
    · rw [if_pos hlt] at h
      cases hh : s.HandleRequest tm r with
      | none => rw [hh] at h; cases h
      | some s1 =>
        rw [hh] at h
        obtain ⟨i, hf, rfl⟩ := HandleRequest_eq_some hh
        refine drainLoop_pred tm Q R hnew rest _ s' (fun x hx => hq x (by simp [hx])) ?_ h
        intro sl hsl
        rcases List.mem_or_eq_of_mem_set hsl with hmem | rfl
        · exact hs sl hmem
        · exact hnew s r (hq r (by simp))
    · rw [if_neg hlt] at h
      obtain rfl : ({ s with Queue := r :: rest } : Server) = s' := by simpa using h
      exact ⟨hs, hq⟩

/-! ## releaseLoop lemmas -/

theorem releaseLoop_load (tm : Int) :
    ∀ (idxs : List Nat) (s : Server) (acc out : List Request) (s' : Server),
      releaseLoop tm idxs s acc = (out, s') →
      out.length + countFull s'.Slots = acc.length + countFull s.Slots ∧
        s'.Queue = s.Queue ∧ s'.Slots.length = s.Slots.length
  | [], s, acc, out, s', h => by
    obtain ⟨rfl, rfl⟩ : acc = out ∧ s = s' := by simpa [releaseLoop] using h
    exact ⟨rfl, rfl, rfl⟩
  | i :: rest, s, acc, out, s', h => by
    unfold releaseLoop at h
    by_cases hc : (s.Slots.getD i default).Full = true ∧ (s.Slots.getD i default).req.Completed ≤ tm
    · rw [if_pos hc] at h
      obtain ⟨hcnt, hqu, hlen, _⟩ := CompleteRequest_effects hc.1
      obtain ⟨ih1, ih2, ih3⟩ := releaseLoop_load tm rest (s.CompleteRequest i).2 (acc ++ [(s.CompleteRequest i).1]) out s' h
      refine ⟨?_, by rw [ih2, hqu], by rw [ih3, hlen]⟩
      rw [ih1]
      simp only [List.length_append, List.length_cons, List.length_nil]
      omega
    · rw [if_neg hc] at h
      exact releaseLoop_load tm rest s acc out s' h

theorem releaseLoop_pred (tm : Int) (Q : Slot → Prop) (P : Request → Prop)
    (hQfalse : ∀ sl : Slot, Q sl → Q ⟨false, sl.req⟩)
    (hrel : ∀ sl : Slot, Q sl → sl.Full = true → sl.req.Completed ≤ tm → P sl.req) :
    ∀ (idxs : List Nat) (s : Server) (acc out : List Request) (s' : Server),
      (∀ sl ∈ s.Slots, Q sl) → (∀ r ∈ acc, P r) →
      releaseLoop tm idxs s acc = (out, s') →
      (∀ sl ∈ s'.Slots, Q sl) ∧ (∀ r ∈ out, P r)
  | [], s, acc, out, s', hs, hacc, h => by
    obtain ⟨rfl, rfl⟩ : acc = out ∧ s = s' := by simpa [releaseLoop] using h
    exact ⟨hs, hacc⟩
  | i :: rest, s, acc, out, s', hs, hacc, h => by
    unfold releaseLoop at h
    by_cases hc : (s.Slots.getD i default).Full = true ∧ (s.Slots.getD i default).req.Completed ≤ tm
    · rw [if_pos hc] at h
      have hi : i < s.Slots.length := lt_length_of_getD_full hc.1
      have hQi : Q (s.Slots.getD i default) := hs _ (getD_mem_of_lt s.Slots i hi)
      refine releaseLoop_pred tm Q P hQfalse hrel rest _ _ out s' ?_ ?_ h
      · intro sl hsl
        rcases List.mem_or_eq_of_mem_set hsl with hmem | rfl
        · exact hs sl hmem
        · exact hQfalse _ hQi
      · intro x hx
        rcases List.mem_append.mp hx with hmem | hmem
        · exact hacc x hmem
        · rw [List.mem_singleton.mp hmem]
          exact hrel _ hQi hc.1 hc.2
    · rw [if_neg hc] at h
      exact releaseLoop_pred tm Q P hQfalse hrel rest s acc out s' hs hacc h

theorem releaseLoop_slotsInv (tm : Int) :
    ∀ (idxs : List Nat) (s : Server) (acc out : List Request) (s' : Server),
      s.slotsInv → releaseLoop tm idxs s acc = (out, s') → s'.slotsInv
  | [], s, acc, out, s', hinv, h => by
    obtain ⟨rfl, rfl⟩ : acc = out ∧ s = s' := by simpa [releaseLoop] using h
    exact hinv
  | i :: rest, s, acc, out, s', hinv, h => by
    unfold releaseLoop at h
    by_cases hc : (s.Slots.getD i default).Full = true ∧ (s.Slots.getD i default).req.Completed ≤ tm
    · rw [if_pos hc] at h
      exact releaseLoop_slotsInv tm rest _ _ out s' (CompleteRequest_slotsInv hinv hc.1) h
    · rw [if_neg hc] at h
      exact releaseLoop_slotsInv tm rest s acc out s' hinv h

/-! ## Server.Tick lemmas -/

theorem Tick_srv_isSome {s : Server} (tm : Int) (hinv : s.slotsInv) :
    (s.Tick tm).isSome = true := by
  unfold Server.Tick
  have hd := drainLoop_isSome tm s.Queue s hinv
  cases hh : drainLoop tm s.Queue s with
  | none => rw [hh] at hd; cases hd
  | some s1 => rfl

theorem Tick_srv_slotsInv {s : Server} {tm : Int} {done : List Request} {s' : Server}
    (hinv : s.slotsInv) (h : s.Tick tm = some (done, s')) : s'.slotsInv := by
  unfold Server.Tick at h
  cases hh : drainLoop tm s.Queue s with
  | none => rw [hh] at h; cases h
  | some s1 =>
    rw [hh] at h
    have h1 : s1.slotsInv := drainLoop_slotsInv tm s.Queue s s1 hinv hh
    injection h with h'
    exact releaseLoop_slotsInv tm (List.range s1.Slots.length) s1 [] done s' h1 h'

theorem Tick_srv_load {s : Server} {tm : Int} {done : List Request} {s' : Server}
    (h : s.Tick tm = some (done, s')) :
    done.length + s'.load = s.load ∧ s'.Slots.length = s.Slots.length := by
  unfold Server.Tick at h
  cases hh : drainLoop tm s.Queue s with
  | none => rw [hh] at h; cases h
  | some s1 =>
    rw [hh] at h
    injection h with h'
    obtain ⟨hd1, hd2⟩ := drainLoop_load tm s.Queue s s1 hh
    obtain ⟨hr1, hr2, hr3⟩ := releaseLoop_load tm (List.range s1.Slots.length) s1 [] done s' h'
    constructor
    · unfold Server.load
      rw [hr2]
      simp only [List.length_nil] at hr1
      omega
    · omega

theorem Tick_srv_pred (tm : Int) (Q : Slot → Prop) (R : Request → Prop) (P : Request → Prop)
    (hnew : ∀ (s : Server) (r : Request), R r → Q ⟨true, s.stamped tm r⟩)
    (hQfalse : ∀ sl : Slot, Q sl → Q ⟨false, sl.req⟩)
    (hrel : ∀ sl : Slot, Q sl → sl.Full = true → sl.req.Completed ≤ tm → P sl.req) :
    ∀ {s : Server} {done : List Request} {s' : Server},
      (∀ r ∈ s.Queue, R r) → (∀ sl ∈ s.Slots, Q sl) →
      s.Tick tm = some (done, s') →
      (∀ r ∈ s'.Queue, R r) ∧ (∀ sl ∈ s'.Slots, Q sl) ∧ (∀ r ∈ done, P r) := by
  intro s done s' hq hs h
  unfold Server.Tick at h
  cases hh : drainLoop tm s.Queue s with
  | none => rw [hh] at h; cases h
  | some s1 =>
    rw [hh] at h
    injection h with h'
    obtain ⟨hs1, hq1⟩ := drainLoop_pred tm Q R hnew s.Queue s s1 hq hs hh
    obtain ⟨hs2, hout⟩ :=
      releaseLoop_pred tm Q P hQfalse hrel (List.range s1.Slots.length) s1 [] done s'
        hs1 (by simp) h'
    obtain ⟨_, hque, _⟩ := releaseLoop_load tm (List.range s1.Slots.length) s1 [] done s' h'
    exact ⟨by rw [hque]; exact hq1, hs2, hout⟩

/-! ## Dispatch and stats lemmas -/

theorem totalLoad_set :
    ∀ (l : List Server) (i : Nat) (s : Server), i < l.length →
      totalLoad (l.set i s) + (l.getD i default).load = totalLoad l + s.load
  | [], i, s, h => absurd h (by simp)
  | s0 :: rest, 0, s, _ => by
    simp only [List.set, totalLoad, List.getD_cons_zero]
    omega
  | s0 :: rest, i + 1, s, h => by
    have h1 : i < rest.length := by simpa using h
    have := totalLoad_set rest i s h1
    simp only [List.set, totalLoad, List.getD_cons_succ]
    omega

theorem AddRequest_load (s : Server) (r : Request) :
    (s.AddRequest r).load = if s.Queue.length < maxQueue then s.load + 1 else s.load := by
  unfold Server.AddRequest Server.load
  split <;> simp
  omega

theorem dispatchOne_conservation {st : SimState} {r : Request} {i : Nat} {st' : SimState}
    (hc : conservation st) (h : dispatchOne st r i = some st') : conservation st' := by
  unfold dispatchOne at h
  by_cases hi : i < st.servers.length
  · rw [if_pos hi] at h
    injection h with h'
    subst h'
    have hset := totalLoad_set st.servers i ((st.servers.getD i default).AddRequest r) hi
    have hload := AddRequest_load (st.servers.getD i default) r
    unfold conservation at hc ⊢
    simp only
    by_cases hq : (st.servers.getD i default).Queue.length < maxQueue
    · rw [if_pos hq] at hload ⊢
      omega
    · rw [if_neg hq] at hload ⊢
      omega
  · rw [if_neg hi] at h
    cases h

theorem dispatchOne_frame {st : SimState} {r : Request} {i : Nat} {st' : SimState}
    (h : dispatchOne st r i = some st') :
    st'.tm = st.tm ∧ st'.acceptedRequests = st.acceptedRequests ∧
      st'.totalQueued = st.totalQueued ∧ st'.totalTime = st.totalTime ∧
      st'.totalCached = st.totalCached := by
  unfold dispatchOne at h
  by_cases hi : i < st.servers.length
  · rw [if_pos hi] at h
    injection h with h'
    subst h'
    exact ⟨rfl, rfl, rfl, rfl, rfl⟩
  · rw [if_neg hi] at h
    cases h

theorem dispatchAll_conservation :
    ∀ (arr : List (Request × Nat)) (st st' : SimState),
      conservation st → dispatchAll arr st = some st' → conservation st'
  | [], st, st', hc, h => by
    obtain rfl : st = st' := by simpa [dispatchAll] using h
    exact hc
  | (r, i) :: rest, st, st', hc, h => by
    unfold dispatchAll at h
    cases hh : dispatchOne st r i with
    | none => rw [hh] at h; cases h
    | some st1 =>
      rw [hh] at h
      exact dispatchAll_conservation rest st1 st' (dispatchOne_conservation hc hh) h

theorem dispatchAll_tm :
    ∀ (arr : List (Request × Nat)) (st st' : SimState),
      dispatchAll arr st = some st' → st'.tm = st.tm
  | [], st, st', h => by
    obtain rfl : st = st' := by simpa [dispatchAll] using h
    rfl
  | (r, i) :: rest, st, st', h => by
    unfold dispatchAll at h
    cases hh : dispatchOne st r i with
    | none => rw [hh] at h; cases h
    | some st1 =>
      rw [hh] at h
      rw [dispatchAll_tm rest st1 st' h, (dispatchOne_frame hh).1]

theorem AddRequest_timeInv {s : Server} {r : Request} {tm : Int}
    (hs : s.timeInv tm) (hr : r.Sent ≤ tm) : (s.AddRequest r).timeInv tm := by
  obtain ⟨hq, hsl⟩ := hs
  unfold Server.AddRequest
  split
  · refine ⟨?_, hsl⟩
    intro x hx
    rcases List.mem_append.mp hx with hmem | hmem
    · exact hq x hmem
    · rw [List.mem_singleton.mp hmem]; exact hr
  · exact ⟨hq, hsl⟩

theorem dispatchOne_timeInv {st : SimState} {r : Request} {i : Nat} {st' : SimState} {tm : Int}
    (hall : ∀ s ∈ st.servers, s.timeInv tm) (hr : r.Sent ≤ tm)
    (h : dispatchOne st r i = some st') : ∀ s ∈ st'.servers, s.timeInv tm := by
  unfold dispatchOne at h
  by_cases hi : i < st.servers.length
  · rw [if_pos hi] at h
    injection h with h'
    subst h'
    intro s hs
    rcases List.mem_or_eq_of_mem_set hs with hmem | rfl
    · exact hall s hmem
    · exact AddRequest_timeInv (hall _ (getD_mem_of_lt st.servers i hi)) hr
  · rw [if_neg hi] at h
    cases h

theorem dispatchAll_timeInv :
    ∀ (arr : List (Request × Nat)) (st st' : SimState) (tm : Int),
      (∀ s ∈ st.servers, s.timeInv tm) → (∀ p ∈ arr, p.1.Sent ≤ tm) →
      dispatchAll arr st = some st' → ∀ s ∈ st'.servers, s.timeInv tm
  | [], st, st', tm, hall, _, h => by
    obtain rfl : st = st' := by simpa [dispatchAll] using h
    exact hall
  | (r, i) :: rest, st, st', tm, hall, harr, h => by
    unfold dispatchAll at h
    cases hh : dispatchOne st r i with
    | none => rw [hh] at h; cases h
    | some st1 =>
      rw [hh] at h
      exact dispatchAll_timeInv rest st1 st' tm
        (dispatchOne_timeInv hall (by simpa using harr (r, i) (by simp)) hh)
        (fun p hp => harr p (by simp [hp])) h

theorem foldl_RecordStats :
    ∀ (done : List Request) (st : SimState),
      (List.foldl RecordStats st done).acceptedRequests = st.acceptedRequests + done.length ∧
        (List.foldl RecordStats st done).totalRequests = st.totalRequests ∧
        (List.foldl RecordStats st done).dropped = st.dropped ∧
        (List.foldl RecordStats st done).servers = st.servers ∧
        (List.foldl RecordStats st done).tm = st.tm
  | [], st => by simp
  | r :: rest, st => by
    obtain ⟨h1, h2, h3, h4, h5⟩ := foldl_RecordStats rest (RecordStats st r)
    simp only [List.foldl_cons, List.length_cons]
    rw [h1, h2, h3, h4, h5]
    refine ⟨?_, rfl, rfl, rfl, rfl⟩
    simp only [RecordStats]
    omega

theorem tickServers_load :
    ∀ (tm : Int) (srvs srvs' : List Server) (done : List Request),
      tickServers tm srvs = some (srvs', done) →
      done.length + totalLoad srvs' = totalLoad srvs
  | tm, [], srvs', done, h => by
    obtain ⟨rfl, rfl⟩ : ([] : List Server) = srvs' ∧ ([] : List Request) = done := by
      simpa [tickServers] using h
    simp [totalLoad]
  | tm, s :: rest, srvs', done, h => by
    unfold tickServers at h
    cases hh : s.Tick tm with
    | none => rw [hh] at h; cases h
    | some p =>
      rw [hh] at h
      obtain ⟨d, s1⟩ := p
      cases hrest : tickServers tm rest with
      | none => rw [hrest] at h; cases h
      | some q =>
        rw [hrest] at h
        obtain ⟨rest1, doneRest⟩ := q
        obtain ⟨rfl, rfl⟩ : s1 :: rest1 = srvs' ∧ d ++ doneRest = done := by
          simpa using h
        have ih := tickServers_load tm rest rest1 doneRest hrest
        have hl := (Tick_srv_load hh).1
        simp only [totalLoad, List.length_append]
        omega

theorem tickServers_isSome :
    ∀ (tm : Int) (srvs : List Server), (∀ s ∈ srvs, s.slotsInv) →
      (tickServers tm srvs).isSome = true
  | tm, [], _ => rfl
  | tm, s :: rest, hall => by
    unfold tickServers
    have h1 := Tick_srv_isSome tm (hall s (by simp))
    cases hh : s.Tick tm with
    | none => rw [hh] at h1; cases h1
    | some p =>
      obtain ⟨d, s1⟩ := p
      have h2 := tickServers_isSome tm rest (fun x hx => hall x (by simp [hx]))
      cases hrest : tickServers tm rest with
      | none => rw [hrest] at h2; cases h2
      | some q => rfl

theorem tickServers_slotsInv :
    ∀ (tm : Int) (srvs srvs' : List Server) (done : List Request),
      (∀ s ∈ srvs, s.slotsInv) → tickServers tm srvs = some (srvs', done) →
      ∀ s ∈ srvs', s.slotsInv
  | tm, [], srvs', done, _, h => by
    obtain ⟨rfl, rfl⟩ : ([] : List Server) = srvs' ∧ ([] : List Request) = done := by
      simpa [tickServers] using h
    simp
  | tm, s :: rest, srvs', done, hall, h => by
    unfold tickServers at h
    cases hh : s.Tick tm with
    | none => rw [hh] at h; cases h
    | some p =>
      rw [hh] at h
      obtain ⟨d, s1⟩ := p
      cases hrest : tickServers tm rest with
      | none => rw [hrest] at h; cases h
      | some q =>
        rw [hrest] at h
        obtain ⟨rest1, doneRest⟩ := q
        obtain ⟨rfl, rfl⟩ : s1 :: rest1 = srvs' ∧ d ++ doneRest = done := by
          simpa using h
        intro x hx
        rcases List.mem_cons.mp hx with rfl | hmem
        · exact Tick_srv_slotsInv (hall s (by simp)) hh
        · exact tickServers_slotsInv tm rest rest1 doneRest
            (fun y hy => hall y (by simp [hy])) hrest x hmem

theorem tickServers_pred (tm : Int) (Q : Slot → Prop) (R : Request → Prop) (P : Request → Prop)
    (hnew : ∀ (s : Server) (r : Request), R r → Q ⟨true, s.stamped tm r⟩)
    (hQfalse : ∀ sl : Slot, Q sl → Q ⟨false, sl.req⟩)
    (hrel : ∀ sl : Slot, Q sl → sl.Full = true → sl.req.Completed ≤ tm → P sl.req) :
    ∀ (srvs srvs' : List Server) (done : List Request),
      (∀ s ∈ srvs, (∀ r ∈ s.Queue, R r) ∧ (∀ sl ∈ s.Slots, Q sl)) →
      tickServers tm srvs = some (srvs', done) →
      (∀ s ∈ srvs', (∀ r ∈ s.Queue, R r) ∧ (∀ sl ∈ s.Slots, Q sl)) ∧ (∀ r ∈ done, P r)
  | [], srvs', done, _, h => by
    obtain ⟨rfl, rfl⟩ : ([] : List Server) = srvs' ∧ ([] : List Request) = done := by
      simpa [tickServers] using h
    simp
  | s :: rest, srvs', done, hall, h => by
    unfold tickServers at h
    cases hh : s.Tick tm with
    | none => rw [hh] at h; cases h
    | some p =>
      rw [hh] at h
      obtain ⟨d, s1⟩ := p
      cases hrest : tickServers tm rest with
      | none => rw [hrest] at h; cases h
      | some q =>
        rw [hrest] at h
        obtain ⟨rest1, doneRest⟩ := q
        obtain ⟨rfl, rfl⟩ : s1 :: rest1 = srvs' ∧ d ++ doneRest = done := by
          simpa using h
        obtain ⟨hq1, hs1, hd1⟩ :=
          Tick_srv_pred tm Q R P hnew hQfalse hrel (hall s (by simp)).1 (hall s (by simp)).2 hh
        obtain ⟨ih1, ih2⟩ := tickServers_pred tm Q R P hnew hQfalse hrel rest rest1 doneRest
          (fun y hy => hall y (by simp [hy])) hrest
        refine ⟨?_, ?_⟩
        · intro x hx
          rcases List.mem_cons.mp hx with rfl | hmem
          · exact ⟨hq1, hs1⟩
          · exact ih1 x hmem
        · intro r hr
          rcases List.mem_append.mp hr with hmem | hmem
          · exact hd1 r hmem
          · exact ih2 r hmem

/-! ## Global Tick lemmas -/

theorem timeInv_mono {s : Server} {tm tm' : Int} (h : s.timeInv tm) (hle : tm ≤ tm') :
    s.timeInv tm' :=
  ⟨fun r hr => le_trans (h.1 r hr) hle, h.2⟩

theorem Tick_parts {arr : List (Request × Nat)} {st st' : SimState}
    (h : Tick arr st = some st') :
    ∃ st1 servers1 done,
      (if st.tm + 1 ≤ requestLimit
       then dispatchAll arr { st with tm := st.tm + 1 }
       else some { st with tm := st.tm + 1 }) = some st1 ∧
      tickServers st1.tm st1.servers = some (servers1, done) ∧
      st' = List.foldl RecordStats { st1 with servers := servers1 } done := by
  simp only [Tick] at h
  cases hd : (if st.tm + 1 ≤ requestLimit
      then dispatchAll arr { st with tm := st.tm + 1 }
      else some { st with tm := st.tm + 1 }) with
  | none => rw [hd] at h; cases h
  | some st1 =>
    rw [hd] at h
    dsimp only at h
    cases ht : tickServers st1.tm st1.servers with
    | none => rw [ht] at h; cases h
    | some q =>
      rw [ht] at h
      obtain ⟨servers1, done⟩ := q
      injection h with h'
      exact ⟨st1, servers1, done, rfl, ht, h'.symm⟩

theorem Tick_tm {arr : List (Request × Nat)} {st st' : SimState}
    (h : Tick arr st = some st') : st'.tm = st.tm + 1 := by
  obtain ⟨st1, servers1, done, hd, ht, rfl⟩ := Tick_parts h
  have h1 : st1.tm = st.tm + 1 := by
    by_cases hlim : st.tm + 1 ≤ requestLimit
    · rw [if_pos hlim] at hd
      exact dispatchAll_tm arr { st with tm := st.tm + 1 } st1 hd
    · rw [if_neg hlim] at hd
      injection hd with hd'
      rw [← hd']
  rw [(foldl_RecordStats done _).2.2.2.2]
  exact h1

theorem Tick_conservation {arr : List (Request × Nat)} {st st' : SimState}
    (hc : conservation st) (h : Tick arr st = some st') : conservation st' := by
  obtain ⟨st1, servers1, done, hd, ht, rfl⟩ := Tick_parts h
  have hc1 : conservation st1 := by
    by_cases hlim : st.tm + 1 ≤ requestLimit
    · rw [if_pos hlim] at hd
      exact dispatchAll_conservation arr { st with tm := st.tm + 1 } st1 hc hd
    · rw [if_neg hlim] at hd
      injection hd with hd'
      rw [← hd']
      exact hc
  have hload := tickServers_load st1.tm st1.servers servers1 done ht
  obtain ⟨hf1, hf2, hf3, hf4, _⟩ := foldl_RecordStats done { st1 with servers := servers1 }
  unfold conservation at hc1 ⊢
  rw [hf1, hf2, hf3, hf4]
  simp only
  omega

theorem Tick_timeInv {arr : List (Request × Nat)} {st st' : SimState}
    (hall : ∀ s ∈ st.servers, s.timeInv st.tm)
    (harr : ∀ p ∈ arr, p.1.Sent = st.tm + 1)
    (h : Tick arr st = some st') :
    ∀ s ∈ st'.servers, s.timeInv st'.tm := by
  obtain ⟨st1, servers1, done, hd, ht, rfl⟩ := Tick_parts h
  have h1 : st1.tm = st.tm + 1 := by
    by_cases hlim : st.tm + 1 ≤ requestLimit
    · rw [if_pos hlim] at hd
      exact dispatchAll_tm arr { st with tm := st.tm + 1 } st1 hd
    · rw [if_neg hlim] at hd
      injection hd with hd'
      rw [← hd']
  have hmono : ∀ s ∈ st.servers, s.timeInv (st.tm + 1) :=
    fun s hs => timeInv_mono (hall s hs) (by omega)
  have hall1 : ∀ s ∈ st1.servers, s.timeInv st1.tm := by
    rw [h1]
    by_cases hlim : st.tm + 1 ≤ requestLimit
    · rw [if_pos hlim] at hd
      exact dispatchAll_timeInv arr { st with tm := st.tm + 1 } st1 (st.tm + 1) hmono
        (fun p hp => le_of_eq (harr p hp)) hd
    · rw [if_neg hlim] at hd
      injection hd with hd'
      rw [← hd']
      exact hmono
  have hpred := tickServers_pred st1.tm
    slotTimeOK (fun r => r.Sent ≤ st1.tm) (fun _ => True)
    (fun s r hr => by
      intro _
      refine ⟨?_, stamped_Accepted_lt_Completed s st1.tm r⟩
      rw [stamped_Sent, stamped_Accepted]
      exact hr)
    (fun sl _ => by intro hfalse; cases hfalse)
    (fun _ _ _ _ => trivial)
    st1.servers servers1 done (fun s hs => hall1 s hs) ht
  obtain ⟨hsrv, _⟩ := hpred
  obtain ⟨_, _, _, hf4, hf5⟩ := foldl_RecordStats done { st1 with servers := servers1 }
  intro s hs
  rw [hf4] at hs
  rw [hf5]
  simp only at hs ⊢
  exact hsrv s hs

/-! ## Main-loop lemmas -/

theorem mainIteration_eq {arr : List (Request × Nat)} {st st' : MainState}
    (h : mainIteration arr st = some st') :
    ∃ sim1, Tick arr st.sim = some sim1 ∧
      (if sim1.tm = requestLimit / 2
       then st'.sim =
              { sim1 with
                totalRequests := 0
                acceptedRequests := 0
                totalQueued := 0
                totalTime := 0
                totalCached := 0 } ∧
            st'.tmx = 0 ∧ st'.resetCount = st.resetCount + 1
       else st'.sim = sim1 ∧ st'.tmx = st.tmx + 1 ∧ st'.resetCount = st.resetCount) := by
  simp only [mainIteration] at h
  cases htick : Tick arr st.sim with
  | none => rw [htick] at h; cases h
  | some sim1 =>
    rw [htick] at h
    dsimp only at h
    refine ⟨sim1, rfl, ?_⟩
    by_cases hr : sim1.tm = requestLimit / 2
    · rw [if_pos hr] at h ⊢
      injection h with h'
      subst h'
      split <;> exact ⟨rfl, rfl, rfl⟩
    · rw [if_neg hr] at h ⊢
      injection h with h'
      subst h'
      split <;> exact ⟨rfl, rfl, rfl⟩

theorem mainIteration_tm {arr : List (Request × Nat)} {st st' : MainState}
    (h : mainIteration arr st = some st') : st'.sim.tm = st.sim.tm + 1 := by
  obtain ⟨sim1, htick, hbr⟩ := mainIteration_eq h
  have h1 := Tick_tm htick
  by_cases hr : sim1.tm = requestLimit / 2
  · rw [if_pos hr] at hbr
    rw [hbr.1]
    exact h1
  · rw [if_neg hr] at hbr
    rw [hbr.1]
    exact h1

theorem mainIteration_resetCount {arr : List (Request × Nat)} {st st' : MainState}
    (h : mainIteration arr st = some st') :
    st'.resetCount = st.resetCount +
      (if st.sim.tm + 1 = requestLimit / 2 then 1 else 0) := by
  obtain ⟨sim1, htick, hbr⟩ := mainIteration_eq h
  have h1 := Tick_tm htick
  by_cases hr : sim1.tm = requestLimit / 2
  · rw [if_pos hr] at hbr
    rw [hbr.2.2, if_pos (by omega)]
  · rw [if_neg hr] at hbr
    rw [hbr.2.2, if_neg (by omega)]
    omega

theorem runMain_tm_resetCount :
    ∀ (plan : List (List (Request × Nat))) (st st' : MainState),
      runMain plan st = some st' →
      st'.sim.tm = st.sim.tm + (plan.length : Int) ∧
        st'.resetCount = st.resetCount +
          (if st.sim.tm < requestLimit / 2 ∧ requestLimit / 2 ≤ st.sim.tm + (plan.length : Int)
           then 1 else 0)
  | [], st, st', h => by
    obtain rfl : st = st' := by simpa [runMain] using h
    refine ⟨by simp, ?_⟩
    rw [if_neg (by simp)]
    omega
  | a :: rest, st, st', h => by
    unfold runMain at h
    cases hh : mainIteration a st with
    | none => rw [hh] at h; cases h
    | some st1 =>
      rw [hh] at h
      have htm := mainIteration_tm hh
      have hrc := mainIteration_resetCount hh
      obtain ⟨ih1, ih2⟩ := runMain_tm_resetCount rest st1 st' h
      constructor
      · rw [ih1, htm]
        simp only [List.length_cons]
        push_cast
        omega
      · rw [ih2, hrc, htm]
        simp only [List.length_cons]
        split_ifs <;> push_cast at * <;> omega

theorem runMain_zeroed :
    ∀ (plan : List (List (Request × Nat))) (st st' : MainState),
      plan ≠ [] → runMain plan st = some st' → st'.sim.tm = requestLimit / 2 →
      st'.sim.totalRequests = 0 ∧ st'.sim.acceptedRequests = 0 ∧ st'.sim.totalCached = 0 ∧
        st'.sim.totalQueued = 0 ∧ st'.sim.totalTime = 0 ∧ st'.tmx = 0
  | [], _, _, hne, _, _ => absurd rfl hne
  | a :: rest, st, st', _, h, htm => by
    unfold runMain at h
    cases hh : mainIteration a st with
    | none => rw [hh] at h; cases h
    | some st1 =>
      rw [hh] at h
      cases hrest : rest with
      | nil =>
        subst hrest
        obtain rfl : st1 = st' := by simpa [runMain] using h
        obtain ⟨sim1, htick, hbr⟩ := mainIteration_eq hh
        by_cases hr : sim1.tm = requestLimit / 2
        · rw [if_pos hr] at hbr
          rw [hbr.1]
          exact ⟨rfl, rfl, rfl, rfl, rfl, hbr.2.1⟩
        · rw [if_neg hr] at hbr
          rw [hbr.1] at htm
          exact absurd htm hr
      | cons b tail =>
        exact runMain_zeroed rest st1 st' (by simp [hrest]) h htm

theorem mainFinished_tm {st : MainState} (h : mainFinished st = true) :
    requestLimit ≤ st.sim.tm :=
  (of_decide_eq_true h).2

theorem modchoose2_candidates_ne (k : Nat) :
    (k % numServers * k + 1) % numServers ≠ k % numServers := by
  intro h
  have h2 : (2 : Nat) ∣ numServers := by norm_num [numServers]
  have e1 : k % numServers % 2 = k % 2 := Nat.mod_mod_of_dvd k h2
  have e2 : (k % numServers * k + 1) % numServers % 2 = (k % numServers * k + 1) % 2 :=
    Nat.mod_mod_of_dvd _ h2
  have e3 : k % numServers * k % 2 = k % 2 * (k % 2) % 2 := by
    conv_lhs => rw [Nat.mul_mod]
    rw [e1]
  rw [h, e1] at e2
  rcases Nat.mod_two_eq_zero_or_one k with h0 | h0 <;> rw [h0] at e2 e3 <;> omega

/-! ## Claim theorems -/

/-- C1 (counterexample): the claim computes the surcharge from the
post-admission slots-in-use count.  On the server `s4` (pre-admission count
4, capacity 8, cache empty so the base time is `uncachedHandleTime`),
admitting a request at tick 0 actually stamps completion tick 100, while the
claim's formula with post-admission count `u = s4.SlotsUsed + 1 = 5 > 4`
predicts `0 + 100 + (100/8)*(5 - 4) = 112`. -/
theorem C1_counterexample :
    (s4.HandleRequest 0 default).map (fun s => (s.Slots.getD 4 default).req.Completed) =
      some 100 ∧
    ¬ ((100 : Int) = 0 + uncachedHandleTime +
        uncachedHandleTime / (numSlots : Int) * (s4.SlotsUsed + 1 - (numSlots : Int) / 2)) := by
  constructor
  · decide
  · decide

/-- C1 (amended): when `Server.HandleRequest` admits a request, the load
surcharge is evaluated using the slots-in-use count BEFORE this admission
(equivalently, `u - 1` where `u` is the post-admission count): with base
time `b` chosen by the hit/miss lookup, the stamped completion tick is
`Accepted + b + (b/numSlots)*(SlotsUsed - numSlots/2)` when the
pre-admission `SlotsUsed` exceeds `numSlots/2` and `Accepted + b` otherwise;
the admission increments `SlotsUsed`, so each successive admission within
the same tick observes a strictly larger slots-in-use value, and the
surcharge is non-decreasing in the observed count. -/
theorem C1_surcharge_preadmission :
    ∀ (s : Server) (tm : Int) (r : Request) (s' : Server),
      s.HandleRequest tm r = some s' →
      s'.SlotsUsed = s.SlotsUsed + 1 ∧
      (∃ i, s.FindSlot = some i ∧
        (s'.Slots.getD i default).req.Accepted = tm ∧
        (s'.Slots.getD i default).req.Completed =
          tm + (if (s.Cache.get r.Item).1 then cachedHandleTime else uncachedHandleTime) +
            (if s.SlotsUsed > (numSlots : Int) / 2
             then (if (s.Cache.get r.Item).1 then cachedHandleTime else uncachedHandleTime) /
                    (numSlots : Int) * (s.SlotsUsed - (numSlots : Int) / 2)
             else 0)) ∧
      (∀ p q : Int, p ≤ q →
        (if p > (numSlots : Int) / 2
         then (if (s.Cache.get r.Item).1 then cachedHandleTime else uncachedHandleTime) /
                (numSlots : Int) * (p - (numSlots : Int) / 2)
         else 0) ≤
        (if q > (numSlots : Int) / 2
         then (if (s.Cache.get r.Item).1 then cachedHandleTime else uncachedHandleTime) /
                (numSlots : Int) * (q - (numSlots : Int) / 2)
         else 0)) := by
  intro s tm r s' h
  obtain ⟨i, hf, rfl⟩ := HandleRequest_eq_some h
  obtain ⟨hlt, _⟩ := FindSlot_spec hf
  have hb : (0 : Int) ≤ (if (s.Cache.get r.Item).1 then cachedHandleTime else uncachedHandleTime) /
      (numSlots : Int) :=
    Int.ediv_nonneg
      (by cases (s.Cache.get r.Item).1 <;> norm_num [cachedHandleTime, uncachedHandleTime])
      (by norm_num [numSlots])
  refine ⟨rfl, ⟨i, hf, ?_, ?_⟩, ?_⟩
  · rw [getD_set_self s.Slots i _ hlt]
    exact stamped_Accepted s tm r
  · rw [getD_set_self s.Slots i _ hlt]
    rw [stamped_Completed, handleTimeFor_eq]
    ring
  · intro p q hpq
    by_cases hp : p > (numSlots : Int) / 2
    · have hq2 : q > (numSlots : Int) / 2 := by omega
      have harg : p - (numSlots : Int) / 2 ≤ q - (numSlots : Int) / 2 := by omega
      rw [if_pos hp, if_pos hq2]
      exact mul_le_mul_of_nonneg_left harg hb
    · rw [if_neg hp]
      by_cases hq : q > (numSlots : Int) / 2
      · have harg : (0 : Int) ≤ q - (numSlots : Int) / 2 := by omega
        rw [if_pos hq]
        exact mul_nonneg hb harg
      · rw [if_neg hq]

/-- C1 (witness): the amended theorem applied to the concrete admission on
`s4` at tick 0. -/
theorem C1_witness : s4'.SlotsUsed = s4.SlotsUsed + 1 :=
  (C1_surcharge_preadmission s4 0 default s4' (by decide)).1

/-- C2 (counterexample): the cache lookup at admission is NOT a pure read.
On a server whose cache holds keys `[2, 1]` (2 most recent), admitting a
request for key 1 changes the cache's recency order to `[1, 2]`; already
`LruCache.get` itself returns a changed cache on a hit. -/
theorem C2_counterexample :
    (serverCex.HandleRequest 0 reqK1).map Server.Cache ≠ some serverCex.Cache ∧
    (cacheCex.get 1).1 = true ∧ (cacheCex.get 1).2 ≠ cacheCex := by
  refine ⟨by decide, by decide, by decide⟩

/-- C2 (amended): the cache lookup performed at admission returns whether
the key is present and never changes the set of cached keys or the
capacity; on a miss the cache is completely unchanged, but on a hit the key
is moved to the front of the recency order (its recency is refreshed).  The
cache stored back by `HandleRequest` is exactly the lookup's result. -/
theorem C2_lookup_refreshes_recency :
    ∀ (c : LruCache) (k : Nat),
      ((c.get k).1 = true ↔ k ∈ c.keys) ∧
      (∀ j, j ∈ (c.get k).2.keys ↔ j ∈ c.keys) ∧
      ((c.get k).2.maxEntries = c.maxEntries) ∧
      (k ∉ c.keys → (c.get k).2 = c) ∧
      (k ∈ c.keys → (c.get k).2.keys = k :: c.keys.erase k) ∧
      (∀ (s : Server) (tm : Int) (r : Request) (s' : Server),
        s.HandleRequest tm r = some s' → s'.Cache = (s.Cache.get r.Item).2) := by
  intro c k
  by_cases hk : k ∈ c.keys
  · refine ⟨by simp [LruCache.get, hk], ?_, by simp [LruCache.get, hk],
      fun hn => absurd hk hn, fun _ => by simp [LruCache.get, hk], ?_⟩
    · intro j
      simp only [LruCache.get, if_pos hk]
      by_cases hj : j = k
      · subst hj
        simp [hk]
      · simp only [List.mem_cons]
        rw [List.mem_erase_of_ne hj]
        constructor
        · rintro (rfl | h)
          · exact hk
          · exact h
        · exact Or.inr
    · intro s tm r s' h
      obtain ⟨i, _, rfl⟩ := HandleRequest_eq_some h
      rfl
  · refine ⟨by simp [LruCache.get, hk], ?_, by simp [LruCache.get, hk],
      fun _ => by simp [LruCache.get, hk], fun hI => absurd hI hk, ?_⟩
    · intro j
      simp [LruCache.get, hk]
    · intro s tm r s' h
      obtain ⟨i, _, rfl⟩ := HandleRequest_eq_some h
      rfl

/-- C2 (witness): on the concrete cache `[2, 1]`, looking up key 1 moves it
to the front of the recency order. -/
theorem C2_witness : (cacheCex.get 1).2.keys = 1 :: cacheCex.keys.erase 1 :=
  (C2_lookup_refreshes_recency cacheCex 1).2.2.2.2.1 (by decide)

/-- C3 (counterexample): the conservation equation
`generated = accepted + dropped` fails at a genuine observation point.
After the first engine tick of a run, in which one generated request was
dispatched to server 0 and enqueued (nothing has completed yet),
`totalRequests = 1` while `acceptedRequests + dropped = 0`. -/
theorem C3_counterexample :
    (Tick [(reqC3, 0)] simInit).map
      (fun st => decide (st.totalRequests = st.acceptedRequests + st.dropped)) = some false := by
  decide

/-- C3 (amended): at every observation point (i.e. after every engine
tick, starting from the initial state and before the mid-run counter
reset), `generatedCount = acceptedCount + droppedCount + inFlight`, where
`droppedCount` counts exactly the arrivals rejected at a full queue and
`inFlight` counts the requests currently queued or occupying a slot.  The
originally claimed equation holds only once the in-flight term is added. -/
theorem C3_conservation_with_inflight :
    conservation simInit ∧
    (∀ (arr : List (Request × Nat)) (st st' : SimState),
      conservation st → Tick arr st = some st' → conservation st') := by
  constructor
  · unfold conservation
    decide
  · intro arr st st' hc h
    exact Tick_conservation hc h

/-- C3 (witness): the amended invariant transported across the first tick
of a run with no arrivals. -/
theorem C3_witness : conservation simInit1 :=
  C3_conservation_with_inflight.2 [] simInit simInit1
    C3_conservation_with_inflight.1 (by decide)

/-- C4: the `modchoose2` policy with first candidate `Item % numServers`
and second candidate `(first*Item + 1) % numServers` returns the second
candidate exactly when the second's outstanding count is lower than the
first's by strictly more than the bias margin 16 (the two candidates are
always distinct, by parity); in particular, whenever the margin is exactly
met (`first.Outstanding = second.Outstanding + 16`) the first candidate is
chosen. -/
theorem C4_modchoose2_margin :
    ∀ (servers : List Server) (r : Request),
      ((r.Item % numServers * r.Item + 1) % numServers ≠ r.Item % numServers) ∧
      (modchoose2 servers r = (r.Item % numServers * r.Item + 1) % numServers ↔
        (servers.getD ((r.Item % numServers * r.Item + 1) % numServers) default).Outstanding
            + 16 <
          (servers.getD (r.Item % numServers) default).Outstanding) ∧
      ((servers.getD (r.Item % numServers) default).Outstanding =
          (servers.getD ((r.Item % numServers * r.Item + 1) % numServers) default).Outstanding
            + 16 →
        modchoose2 servers r = r.Item % numServers) := by
  intro servers r
  have hne := modchoose2_candidates_ne r.Item
  refine ⟨hne, ?_, ?_⟩
  · unfold modchoose2
    by_cases hc : (servers.getD ((r.Item % numServers * r.Item + 1) % numServers)
          default).Outstanding + 16 <
        (servers.getD (r.Item % numServers) default).Outstanding
    · rw [if_pos hc]
      exact ⟨fun _ => hc, fun _ => rfl⟩
    · rw [if_neg hc]
      exact ⟨fun he => absurd he.symm hne, fun hlt => absurd hlt hc⟩
  · intro hmargin
    unfold modchoose2
    rw [if_neg (by omega)]

/-- C4 (witness): the margin-exactly-met scenario.  In `srvW` server 1 has
outstanding 16 and server 2 has outstanding 0; for a request with key 1 the
candidates are servers 1 and 2, and the first is chosen. -/
theorem C4_witness : modchoose2 srvW reqW = reqW.Item % numServers :=
  (C4_modchoose2_margin srvW reqW).2.2 (by decide)

/-- C5: the `"All slots used"` panic in `Server.FindSlot` is unreachable.
Under the accounting invariant (`SlotsUsed` equals the number of full slots
and the slot array has length `numSlots`), whenever the admission loop's
guard `SlotsUsed < numSlots` holds a free slot exists (`FindSlot` returns
an index), and a whole `Server.Tick` never hits the panic. -/
theorem C5_findslot_panic_unreachable :
    ∀ (s : Server) (tm : Int),
      s.SlotsUsed = (countFull s.Slots : Int) → s.Slots.length = numSlots →
      ((s.SlotsUsed < (numSlots : Int) → s.FindSlot.isSome = true) ∧
        (s.Tick tm).isSome = true) := by
  intro s tm h1 h2
  constructor
  · intro hlt
    exact FindSlot_isSome (by omega)
  · exact Tick_srv_isSome tm ⟨h1, h2⟩

/-- C5 (witness): the invariant holds of a freshly constructed server, whose
`FindSlot` and `Tick` therefore cannot panic. -/
theorem C5_witness :
    emptyServer.FindSlot.isSome = true ∧ (emptyServer.Tick 0).isSome = true :=
  ⟨(C5_findslot_panic_unreachable emptyServer 0 (by decide) (by decide)).1 (by decide),
    (C5_findslot_panic_unreachable emptyServer 0 (by decide) (by decide)).2⟩

/-- C6: the slot-accounting invariant (`SlotsUsed` equals the number of
slots whose `Full` flag is true, and `0 ≤ SlotsUsed ≤ numSlots`) is
preserved by `AddRequest`, by `HandleRequest`, by `CompleteRequest` (as
invoked, on an occupied slot), and by a whole `Server.Tick`; the bounds
follow from the invariant. -/
theorem C6_slots_accounting :
    ∀ (s : Server) (tm : Int) (r : Request) (i : Nat),
      s.slotsInv →
      ((s.AddRequest r).slotsInv ∧
        (∀ s', s.HandleRequest tm r = some s' → s'.slotsInv) ∧
        ((s.Slots.getD i default).Full = true → (s.CompleteRequest i).2.slotsInv) ∧
        (∀ done s', s.Tick tm = some (done, s') → s'.slotsInv) ∧
        (0 ≤ s.SlotsUsed ∧ s.SlotsUsed ≤ (numSlots : Int))) := by
  intro s tm r i hinv
  refine ⟨AddRequest_slotsInv s r hinv, fun s' h => HandleRequest_slotsInv hinv h,
    fun hful => CompleteRequest_slotsInv hinv hful,
    fun done s' h => Tick_srv_slotsInv hinv h, ?_⟩
  obtain ⟨h1, h2⟩ := hinv
  have := countFull_le_length s.Slots
  omega

/-- C6 (witness): the invariant transported across an `AddRequest` on a
fresh server. -/
theorem C6_witness : (emptyServer.AddRequest default).slotsInv :=
  (C6_slots_accounting emptyServer 0 default 0 ⟨by decide, by decide⟩).1

/-- C7: monotonic timestamps.  The timestamp invariant holds of the initial
state; it is preserved by every engine tick whose arrivals are stamped
`Sent = tm` by the generator; and every request released by the per-server
tick loop (exactly the requests forwarded to `RecordStats`) satisfies
`Sent ≤ Accepted ≤ Completed`. -/
theorem C7_monotonic_time :
    (∀ s ∈ simInit.servers, s.timeInv simInit.tm) ∧
    (∀ (arr : List (Request × Nat)) (st st' : SimState),
      (∀ s ∈ st.servers, s.timeInv st.tm) → (∀ p ∈ arr, p.1.Sent = st.tm + 1) →
      Tick arr st = some st' → ∀ s ∈ st'.servers, s.timeInv st'.tm) ∧
    (∀ (tm : Int) (srvs srvs' : List Server) (done : List Request),
      (∀ s ∈ srvs, s.timeInv tm) → tickServers tm srvs = some (srvs', done) →
      ∀ r ∈ done, r.Sent ≤ r.Accepted ∧ r.Accepted ≤ r.Completed) := by
  refine ⟨?_, ?_, ?_⟩
  · intro s hs
    simp only [simInit, List.mem_replicate] at hs
    rw [hs.2]
    exact ⟨by simp [emptyServer], by
      intro sl hsl
      simp only [emptyServer, List.mem_replicate] at hsl
      rw [hsl.2]
      intro hfalse
      cases hfalse⟩
  · intro arr st st' hall harr h
    exact Tick_timeInv hall harr h
  · intro tm srvs srvs' done hall h
    have hpred := tickServers_pred tm
      slotTimeOK (fun r => r.Sent ≤ tm)
      (fun r => r.Sent ≤ r.Accepted ∧ r.Accepted ≤ r.Completed)
      (fun s r hr => by
        intro _
        refine ⟨?_, stamped_Accepted_lt_Completed s tm r⟩
        rw [stamped_Sent, stamped_Accepted]
        exact hr)
      (fun sl _ => by intro hfalse; cases hfalse)
      (fun sl hQ hful hcmp => by
        obtain ⟨h1, h2⟩ := hQ hful
        exact ⟨h1, le_of_lt h2⟩)
      srvs srvs' done (fun s hs => hall s hs) h
    exact hpred.2

/-- C7 (witness): the invariant transported across the first tick of a run
with no arrivals, specialised to the (unchanged) first server. -/
theorem C7_witness : emptyServer.timeInv simInit1.tm :=
  C7_monotonic_time.2.1 [] simInit simInit1 C7_monotonic_time.1 (by simp) (by decide)
    emptyServer (by decide)

/-- C8: the mid-run statistics reset.  In any complete prefix of a `main`
run started from `mainInit`, the reset has executed exactly once when the
tick has reached `requestLimit/2` and never before (`resetCount` is the
ghost count of reset executions); at the reset tick all aggregate counters
(`totalRequests`, `acceptedRequests`, `totalCached`, `totalQueued`,
`totalTime`) and the elapsed-tick base `tmx` are zero; and the loop cannot
terminate before tick `requestLimit`, so every terminated run has performed
the reset exactly once. -/
theorem C8_midrun_reset_once :
    ∀ (plan : List (List (Request × Nat))) (st' : MainState),
      runMain plan mainInit = some st' →
      (st'.resetCount = if requestLimit / 2 ≤ (plan.length : Int) then 1 else 0) ∧
      ((plan.length : Int) = requestLimit / 2 →
        st'.sim.totalRequests = 0 ∧ st'.sim.acceptedRequests = 0 ∧
          st'.sim.totalCached = 0 ∧ st'.sim.totalQueued = 0 ∧ st'.sim.totalTime = 0 ∧
          st'.tmx = 0) ∧
      (mainFinished st' = true → requestLimit ≤ (plan.length : Int)) := by
  intro plan st' h
  obtain ⟨htm, hrc⟩ := runMain_tm_resetCount plan mainInit st' h
  have hlim : requestLimit = 4000000 := rfl
  have htm0 : mainInit.sim.tm = 0 := rfl
  have hrc0 : mainInit.resetCount = 0 := rfl
  refine ⟨?_, ?_, ?_⟩
  · rw [hrc, hrc0, htm0]
    split_ifs <;> omega
  · intro hlen
    have hne : plan ≠ [] := by
      intro hcon
      rw [hcon] at hlen
      simp at hlen
      omega
    exact runMain_zeroed plan mainInit st' hne h (by omega)
  · intro hfin
    have := mainFinished_tm hfin
    omega

/-- C8 (witness): the reset-count characterisation applied to the empty run
prefix: no reset has happened at tick 0. -/
theorem C8_witness :
    mainInit.resetCount =
      if requestLimit / 2 ≤ ((([] : List (List (Request × Nat))).length : Nat) : Int)
      then 1 else 0 :=
  (C8_midrun_reset_once [] mainInit rfl).1

/-- C9: dropping an arrival is side-effect free.  For every server whose
queue is at the `maxQueue` capacity, `AddRequest` returns the server
completely unchanged — queue, slots, `SlotsUsed`, and cache. -/
theorem C9_drop_no_side_effect :
    ∀ (s : Server) (r : Request), s.Queue.length = maxQueue → s.AddRequest r = s := by
  intro s r h
  unfold Server.AddRequest
  rw [if_neg (by omega)]

/-- C9 (witness): a server with a full queue is unchanged by `AddRequest`. -/
theorem C9_witness :
    fullServer.Queue.length = maxQueue ∧ fullServer.AddRequest default = fullServer :=
  ⟨by decide, C9_drop_no_side_effect fullServer default (by decide)⟩

/-- C10: a request is never released in the tick it is admitted.  Every
admission stamps `Accepted = tm` and `Completed ≥ tm + cachedHandleTime`
with `cachedHandleTime = 10 > 0`; and (given that every occupied slot's
request completes strictly after its admission, which admissions establish)
every request released by `Server.Tick` at tick `tm` has `Accepted < tm`:
the release tick is strictly greater than the admission tick. -/
theorem C10_no_same_tick_release :
    ∀ (s : Server) (tm : Int) (r : Request),
      (∀ s', s.HandleRequest tm r = some s' →
        ∃ i, s.FindSlot = some i ∧
          (s'.Slots.getD i default).req.Accepted = tm ∧
          tm + cachedHandleTime ≤ (s'.Slots.getD i default).req.Completed) ∧
      cachedHandleTime = 10 ∧ (0 : Int) < cachedHandleTime ∧
      (∀ done s',
        (∀ sl ∈ s.Slots, sl.Full = true → sl.req.Accepted < sl.req.Completed) →
        s.Tick tm = some (done, s') →
        ∀ q ∈ done, q.Accepted < tm) := by
  intro s tm r
  refine ⟨?_, rfl, by norm_num [cachedHandleTime], ?_⟩
  · intro s' h
    obtain ⟨i, hf, rfl⟩ := HandleRequest_eq_some h
    obtain ⟨hlt, _⟩ := FindSlot_spec hf
    refine ⟨i, hf, ?_, ?_⟩
    · rw [getD_set_self s.Slots i _ hlt]
      exact stamped_Accepted s tm r
    · rw [getD_set_self s.Slots i _ hlt, stamped_Completed]
      have := handleTimeFor_ge_cached s (s.Cache.get r.Item).1
      omega
  · intro done s' hslots h
    have hpred := Tick_srv_pred tm
      (fun sl => sl.Full = true → sl.req.Accepted < sl.req.Completed)
      (fun _ => True) (fun q => q.Accepted < tm)
      (fun s0 r0 _ => by
        intro _
        exact stamped_Accepted_lt_Completed s0 tm r0)
      (fun sl hQ => by intro hfalse; cases hfalse)
      (fun sl hQ hful hcmp => lt_of_lt_of_le (hQ hful) hcmp)
      (fun _ _ => trivial) hslots h
    exact hpred.2.2

/-- C10 (witness): on `sDone` (one slot due at tick 5), ticking at tick 5
releases that request, whose admission tick 0 is strictly before 5. -/
theorem C10_witness : reqDone.Accepted < (5 : Int) :=
  (C10_no_same_tick_release sDone 5 default).2.2.2 [reqDone] sDone' (by decide) (by decide)
    reqDone (by simp)
